import Mathlib

/-!
Shallow embedding of src/park_scheduler.py (function optimize_park_scheduling).

Days are modelled as integers (the ordinal of the calendar date; the source
uses datetime.date, where d + timedelta(days=1) corresponds to d + 1 and
(d2 - d1).days corresponds to d2 - d1).  A park (activity) and a company are
records with the same fields as the Python dictionaries.  The LP problem is
modelled as the list of linear constraints accumulated by the repeated
"problem +=" statements, together with the list of weighted objective terms;
a linear constraint is a list of (coefficient, variable) terms compared to a
right-hand side with either equality or less-or-equal.

PuLP dictionaries of variables are keyed by the park names and the day list,
so a lookup at a day that is not in the day list raises KeyError and the
whole construction aborts.  buildModel therefore returns an Except value:
it yields the constraint list exactly when every dictionary lookup performed
by the source is within the key domain (buildOk), and an error otherwise.
-/

namespace ParkScheduler

/-- The LP variables of the source: park_schedule (line 24), slack_6
(line 27), slack_7 (line 28) and slack_8 (line 29). -/
inductive Var where
  | x (p : String) (d : Int)
  | s6 (p : String)
  | s7 (p1 p2 : String) (d1 d2 : Int)
  | s8 (p1 p2 : String) (d1 d2 : Int)
deriving DecidableEq, Repr

/-- A park dictionary (source lines 110-147): name, company, demanding flag,
cannot_visit_days, must_visit_day, days_to_avoid, preferred_days. -/
structure Park where
  name : String
  company : String
  demanding : Bool
  cannot_visit_days : List Int
  must_visit_day : Option Int
  days_to_avoid : List Int
  preferred_days : List Int
deriving DecidableEq, Repr

/-- A company dictionary (source lines 152-154): company name and the
number_of_days of the ticket bundle (the grouping window). -/
structure Company where
  company : String
  number_of_days : Int
deriving DecidableEq, Repr

/-- One linear constraint: sum of coefficient * variable, compared with rhs,
as equality when isEq is true and as less-or-equal otherwise. -/
structure LinCon where
  terms : List (Int × Var)
  isEq : Bool
  rhs : Int
deriving DecidableEq, Repr

/-- Value of the linear form of a constraint under an assignment. -/
def evalLhs (σ : Var → Int) (ts : List (Int × Var)) : Int :=
  (ts.map fun t => t.1 * σ t.2).sum

/-- Whether an assignment satisfies one constraint. -/
def satC (σ : Var → Int) (c : LinCon) : Bool :=
  if c.isEq then evalLhs σ c.terms == c.rhs else decide (evalLhs σ c.terms ≤ c.rhs)

/-- Whether an assignment satisfies every constraint of a list. -/
def satAll (σ : Var → Int) (cs : List LinCon) : Bool :=
  cs.all (satC σ)

/-- park_names (source line 21). -/
def parkNames (parks : List Park) : List String :=
  parks.map Park.name

/-- All ordered pairs (earlier element, later element) of a list.  This is
the iteration pattern "for idx, a in enumerate(l[:-1]): for b in l[idx+1:]"
used by the source at lines 69-71 and 79-84: every pair of distinct
positions, the first strictly before the second. -/
def ordPairs {α : Type} : List α → List (α × α)
  | [] => []
  | a :: rest => (rest.map fun b => (a, b)) ++ ordPairs rest

/-- Penalty weights (source lines 32-34). -/
def PENALTY_6 : Int := 10000

def PENALTY_7 : Int := 10000

def PENALTY_8 : Int := 10000

/-- The objective (source lines 36-38): the slack_6 variable of every park
name plus the slack_7 and slack_8 variables of EVERY quadruple
(p1, p2, d1, d2) drawn from the full products park_names x park_names x
days x days, each weighted with its penalty. -/
def objectiveTerms (days : List Int) (names : List String) : List (Int × Var) :=
  (names.map fun p => (PENALTY_6, Var.s6 p))
  ++ (names.flatMap fun p1 => names.flatMap fun p2 =>
        days.flatMap fun d1 => days.map fun d2 => (PENALTY_7, Var.s7 p1 p2 d1 d2))
  ++ (names.flatMap fun p1 => names.flatMap fun p2 =>
        days.flatMap fun d1 => days.map fun d2 => (PENALTY_8, Var.s8 p1 p2 d1 d2))

/-- Constraint 1 (source lines 41-42): for each day, the sum of the
assignment variables of all parks is at most 1. -/
def constraint1 (days : List Int) (names : List String) : List LinCon :=
  days.map fun d => ⟨names.map fun p => (1, Var.x p d), false, 1⟩

/-- Constraint 2 (source lines 45-46): each park is assigned exactly once. -/
def constraint2 (days : List Int) (names : List String) : List LinCon :=
  names.map fun p => ⟨days.map fun d => (1, Var.x p d), true, 1⟩

/-- The hard zeroing constraint x[p][d] == 0 used by constraints 3 and 5. -/
def zeroCon (p : String) (d : Int) : LinCon :=
  ⟨[(1, Var.x p d)], true, 0⟩

/-- The hard constraint x[p][d] == 1 used by constraint 4. -/
def oneCon (p : String) (d : Int) : LinCon :=
  ⟨[(1, Var.x p d)], true, 1⟩

/-- Constraint 3 (source lines 49-51): parks cannot be visited on their
cannot_visit_days. -/
def constraint3 (parks : List Park) : List LinCon :=
  parks.flatMap fun p => p.cannot_visit_days.map fun d => zeroCon p.name d

/-- Constraint 4 (source lines 54-56): a park with a must_visit_day is
assigned to that day. -/
def constraint4 (parks : List Park) : List LinCon :=
  parks.flatMap fun p => p.must_visit_day.toList.map fun d => oneCon p.name d

/-- Constraint 5 (source lines 59-61): parks are not assigned to their
days_to_avoid; identical in form to constraint 3. -/
def constraint5 (parks : List Park) : List LinCon :=
  parks.flatMap fun p => p.days_to_avoid.map fun d => zeroCon p.name d

/- Constraint 6 (source lines 64-65) builds the expression
   lpSum(x[p][d] for d in preferred_days) + slack_6[p] == 1
   but the statement lacks "problem +=": the constraint is constructed and
   immediately discarded, so it contributes nothing to the constraint list.
   Its dictionary lookups still happen, which is accounted for in buildOk. -/

/-- First temporal order of constraint 7 (source line 74):
x[p1][d1] + x[p2][d2] <= 1 + slack_7[p1][p2][d1][d2]. -/
def consecA (p1 p2 : String) (d1 d2 : Int) : LinCon :=
  ⟨[(1, Var.x p1 d1), (1, Var.x p2 d2), (-1, Var.s7 p1 p2 d1 d2)], false, 1⟩

/-- Second temporal order of constraint 7 (source line 75):
x[p1][d2] + x[p2][d1] <= 1 + slack_7[p1][p2][d1][d2]; note the slack
variable is the same one as in the first order. -/
def consecB (p1 p2 : String) (d1 d2 : Int) : LinCon :=
  ⟨[(1, Var.x p1 d2), (1, Var.x p2 d1), (-1, Var.s7 p1 p2 d1 d2)], false, 1⟩

/-- Constraint 7 (source lines 68-75): for every day d1 of days[:-1] and
every positionally ordered pair of parks that are both demanding, both
temporal orders with d2 = d1 + 1.  (The source guards p1 and p2 with
separate if statements around the nested loop; filtering the pair list on
both flags generates the same constraints.) -/
def constraint7 (days : List Int) (parks : List Park) : List LinCon :=
  days.dropLast.flatMap fun d1 =>
    ((ordPairs parks).filter fun pq => pq.1.demanding && pq.2.demanding).flatMap
      fun pq =>
        [consecA pq.1.name pq.2.name d1 (d1 + 1),
         consecB pq.1.name pq.2.name d1 (d1 + 1)]

/-- First temporal order of constraint 8 (source line 87):
x[p1][d1] + x[p2][d2] <= 1 + slack_8[p1][p2][d1][d2]. -/
def windowA (p1 p2 : String) (d1 d2 : Int) : LinCon :=
  ⟨[(1, Var.x p1 d1), (1, Var.x p2 d2), (-1, Var.s8 p1 p2 d1 d2)], false, 1⟩

/-- Second temporal order of constraint 8 (source line 88):
x[p1][d2] + x[p2][d1] <= 1 + slack_8[p1][p2][d2][d1]; unlike constraint 7,
this order uses the slack variable with the day indices swapped. -/
def windowB (p1 p2 : String) (d1 d2 : Int) : LinCon :=
  ⟨[(1, Var.x p1 d2), (1, Var.x p2 d1), (-1, Var.s8 p1 p2 d2 d1)], false, 1⟩

/-- Constraint 8 (source lines 78-88): for every company record, every
positionally ordered pair of parks whose company field equals that record,
and every positionally ordered pair of days whose inclusive span exceeds
the company number_of_days, both temporal orders. -/
def constraint8 (days : List Int) (parks : List Park) (companies : List Company) :
    List LinCon :=
  companies.flatMap fun c =>
    ((ordPairs parks).filter fun pq =>
        (c.company == pq.1.company) && (c.company == pq.2.company)).flatMap fun pq =>
      ((ordPairs days).filter fun dd =>
          decide (c.number_of_days < dd.2 - dd.1 + 1)).flatMap fun dd =>
        [windowA pq.1.name pq.2.name dd.1 dd.2,
         windowB pq.1.name pq.2.name dd.1 dd.2]

/-- The hard constraints of the model: families 1 to 5. -/
def hardConstraints (days : List Int) (parks : List Park) : List LinCon :=
  constraint1 days (parkNames parks) ++ constraint2 days (parkNames parks)
  ++ constraint3 parks ++ constraint4 parks ++ constraint5 parks

/-- All constraints accumulated into the problem, in source order.
Constraint 6 is absent: the source never adds it (line 65). -/
def modelConstraints (days : List Int) (parks : List Park)
    (companies : List Company) : List LinCon :=
  hardConstraints days parks ++ constraint7 days parks
  ++ constraint8 days parks companies

/-- Whether some positionally ordered pair of parks is demanding, i.e.
whether the body of constraint 7 executes at all for a given d1. -/
def hasDemandingPair (parks : List Park) : Bool :=
  (ordPairs parks).any fun pq => pq.1.demanding && pq.2.demanding

/-- All dictionary lookups performed during model construction are within
the key domain.  Constraints 3, 4, 5 and the discarded constraint 6 look up
x[p][d] for the days listed in the respective park fields (KeyError when
such a day is outside the day list); constraint 7 looks up x[p2][d1+1] and
slack_7[..][d1][d1+1] for every d1 in days[:-1], but only when at least one
demanding pair makes the loop body run. -/
def buildOk (days : List Int) (parks : List Park) : Bool :=
  (parks.all fun p =>
      p.cannot_visit_days.all (days.contains ·)
      && p.must_visit_day.all (days.contains ·)
      && p.days_to_avoid.all (days.contains ·)
      && p.preferred_days.all (days.contains ·))
  && (!hasDemandingPair parks || days.dropLast.all fun d => days.contains (d + 1))

/-- Model construction: the constraint list when every lookup is in domain,
a KeyError otherwise. -/
def buildModel (days : List Int) (parks : List Park) (companies : List Company) :
    Except String (List LinCon) :=
  if buildOk days parks then Except.ok (modelConstraints days parks companies)
  else Except.error "KeyError"

/-- The reporting step (source lines 97-102): when the solver status is at
least 0 it prints, for each day in order and each park in order, the pair
whenever the value of the assignment variable is nonzero; no consistency
check of any kind is performed.  Modelled as the list of printed
(day, park name) pairs, or none when the status guard fails. -/
def extractSchedule (status : Int) (days : List Int) (parks : List Park)
    (value : Var → Int) : Option (List (Int × String)) :=
  if 0 ≤ status then
    some (days.flatMap fun d =>
      parks.filterMap fun p =>
        if value (Var.x p.name d) = 0 then none else some (d, p.name))
  else none

/-- Recognizer for slack_6 variables. -/
def isS6 : Var → Bool
  | Var.s6 _ => true
  | _ => false

/-- Characterization of the variables the objective ranges over: every
slack_6 variable of a listed park name, and every slack_7 and slack_8
variable over the full products of park names and days. -/
def objFamily (days : List Int) (names : List String) : Var → Bool
  | Var.s6 p => decide (p ∈ names)
  | Var.s7 p1 p2 d1 d2 =>
      decide (p1 ∈ names) && decide (p2 ∈ names)
      && decide (d1 ∈ days) && decide (d2 ∈ days)
  | Var.s8 p1 p2 d1 d2 =>
      decide (p1 ∈ names) && decide (p2 ∈ names)
      && decide (d1 ∈ days) && decide (d2 ∈ days)
  | Var.x _ _ => false

/-! ### Concrete fixtures used by witnesses and counterexamples -/

def pPref : Park := ⟨"P", "C", false, [], none, [], [0]⟩

def pAvoid : Park := ⟨"A", "C", false, [1], none, [], []⟩

def pW1 : Park := ⟨"W1", "C", false, [], none, [], []⟩

def pW2 : Park := ⟨"W2", "C", false, [], none, [], []⟩

def pQ1 : Park := ⟨"Q1", "C", true, [], none, [], []⟩

def pQ2 : Park := ⟨"Q2", "C", true, [], none, [], []⟩

def pD1 : Park := ⟨"D1", "C", true, [], none, [], []⟩

def pD2 : Park := ⟨"D2", "C", true, [], none, [], []⟩

def pU1 : Park := ⟨"U1", "U", false, [], none, [], []⟩

def pU2 : Park := ⟨"U2", "U", false, [], none, [], []⟩

def compU : Company := ⟨"U", 1⟩

def pBad : Park := ⟨"B", "CompX", false, [0], some 0, [], []⟩

def pX : Park := ⟨"X", "C", false, [], none, [], []⟩

/-- The all-zero assignment. -/
def sigma0 : Var → Int := fun _ => 0

/-- A concrete bijective assignment: W1 on day 0, W2 on day 1. -/
def sigmaBij : Var → Int := fun v =>
  if v = Var.x "W1" 0 ∨ v = Var.x "W2" 1 then 1 else 0

/-! ### Helper lemmas about integer sums over lists -/

theorem listSum_map_add {α : Type} (l : List α) (f g : α → Int) :
    (l.map fun a => f a + g a).sum = (l.map f).sum + (l.map g).sum := by
  induction l with
  | nil => simp
  | cons a t ih => simp [ih]; omega

theorem listSum_comm {α β : Type} (l1 : List α) (l2 : List β) (f : α → β → Int) :
    (l1.map fun a => (l2.map fun b => f a b).sum).sum
      = (l2.map fun b => (l1.map fun a => f a b).sum).sum := by
  induction l1 with
  | nil => simp
  | cons a t ih =>
    simp only [List.map_cons, List.sum_cons, ih]
    rw [← listSum_map_add]

theorem listSum_nonneg {α : Type} (l : List α) (f : α → Int)
    (h : ∀ a ∈ l, 0 ≤ f a) : 0 ≤ (l.map f).sum := by
  induction l with
  | nil => simp
  | cons a t ih =>
    simp only [List.map_cons, List.sum_cons]
    have h1 := h a (List.mem_cons_self a t)
    have h2 := ih fun b hb => h b (List.mem_cons_of_mem a hb)
    omega

theorem le_listSum {α : Type} (l : List α) (f : α → Int) (a : α)
    (h : ∀ b ∈ l, 0 ≤ f b) (ha : a ∈ l) : f a ≤ (l.map f).sum := by
  induction l with
  | nil => cases ha
  | cons c t ih =>
    simp only [List.map_cons, List.sum_cons]
    rcases List.mem_cons.mp ha with rfl | hat
    · have := listSum_nonneg t f fun b hb => h b (List.mem_cons_of_mem a hb)
      omega
    · have h1 := h c (List.mem_cons_self c t)
      have h2 := ih (fun b hb => h b (List.mem_cons_of_mem c hb)) hat
      omega

theorem listSum_two_le {α : Type} [DecidableEq α] (l : List α) (f : α → Int) (a b : α)
    (h : ∀ c ∈ l, 0 ≤ f c) (ha : a ∈ l) (hb : b ∈ l) (hab : a ≠ b) :
    f a + f b ≤ (l.map f).sum := by
  have hperm : l.Perm (a :: l.erase a) := List.perm_cons_erase ha
  have hsum : (l.map f).sum = f a + ((l.erase a).map f).sum := by
    have := (hperm.map f).sum_eq
    simpa using this
  have hbe : b ∈ l.erase a := (List.mem_erase_of_ne (Ne.symm hab)).mpr hb
  have hfb := le_listSum (l.erase a) f b
    (fun c hc => h c (List.mem_of_mem_erase hc)) hbe
  omega

theorem listSum_zero_all {α : Type} (l : List α) (f : α → Int)
    (h : ∀ a ∈ l, 0 ≤ f a) (hz : (l.map f).sum = 0) : ∀ a ∈ l, f a = 0 := by
  intro a ha
  have h1 := le_listSum l f a h ha
  have h2 := h a ha
  omega

theorem listSum_one_unique {α : Type} (l : List α) (f : α → Int)
    (h : ∀ a ∈ l, f a = 0 ∨ f a = 1) (h1 : (l.map f).sum = 1) :
    ∃ a ∈ l, f a = 1 ∧ ∀ b ∈ l, f b = 1 → b = a := by
  induction l with
  | nil => simp at h1
  | cons c t ih =>
    simp only [List.map_cons, List.sum_cons] at h1
    have hrest : ∀ a ∈ t, f a = 0 ∨ f a = 1 :=
      fun a ha => h a (List.mem_cons_of_mem c ha)
    rcases h c (List.mem_cons_self c t) with hc0 | hc1
    · have ht : (t.map f).sum = 1 := by omega
      obtain ⟨a, ha, hfa, huniq⟩ := ih hrest ht
      refine ⟨a, List.mem_cons_of_mem c ha, hfa, ?_⟩
      intro b hb hfb
      rcases List.mem_cons.mp hb with rfl | hbt
      · omega
      · exact huniq b hbt hfb
    · have ht : (t.map f).sum = 0 := by omega
      have hallz := listSum_zero_all t f (fun a ha => by rcases hrest a ha with h | h <;> omega) ht
      refine ⟨c, List.mem_cons_self c t, hc1, ?_⟩
      intro b hb hfb
      rcases List.mem_cons.mp hb with rfl | hbt
      · rfl
      · have := hallz b hbt
        omega

theorem listSum_eq_length {α : Type} (l : List α) (f : α → Int)
    (h : ∀ a ∈ l, f a = 1) : (l.map f).sum = l.length := by
  induction l with
  | nil => simp
  | cons c t ih =>
    have h1 := h c (List.mem_cons_self c t)
    have h2 := ih fun a ha => h a (List.mem_cons_of_mem c ha)
    simp [h1, h2]
    omega

theorem listSum_le_length {α : Type} (l : List α) (f : α → Int)
    (h : ∀ a ∈ l, f a ≤ 1) : (l.map f).sum ≤ l.length := by
  induction l with
  | nil => simp
  | cons c t ih =>
    have h1 := h c (List.mem_cons_self c t)
    have h2 := ih fun a ha => h a (List.mem_cons_of_mem c ha)
    simp only [List.map_cons, List.sum_cons, List.length_cons]
    push_cast
    omega

/-! ### Helper lemmas about ordPairs, sorted day lists and evalLhs -/

theorem mem_ordPairs {α : Type} {l : List α} {a b : α} :
    (a, b) ∈ ordPairs l ↔ [a, b].Sublist l := by
  induction l with
  | nil => simp [ordPairs]
  | cons c t ih =>
    simp only [ordPairs, List.mem_append, List.mem_map]
    constructor
    · rintro (⟨q, hq, heq⟩ | hp)
      · injection heq with h1 h2
        subst h1
        subst h2
        exact List.cons_sublist_cons.mpr (List.singleton_sublist.mpr hq)
      · exact (ih.mp hp).cons c
    · intro hsub
      cases hsub with
      | cons _ h1 => exact Or.inr (ih.mpr h1)
      | cons₂ _ h1 =>
        exact Or.inl ⟨b, List.singleton_sublist.mp h1, rfl⟩

theorem ordPairs_lt_of_sorted {l : List Int} {a b : Int}
    (hs : l.Sorted (· < ·)) (h : (a, b) ∈ ordPairs l) : a < b := by
  have hsub := mem_ordPairs.mp h
  have hp := hs.sublist hsub
  exact List.rel_of_sorted_cons hp b (List.mem_singleton.mpr rfl)

theorem pair_sublist_of_sorted {l : List Int} {a b : Int}
    (hs : l.Sorted (· < ·)) (ha : a ∈ l) (hb : b ∈ l) (hab : a < b) :
    [a, b].Sublist l := by
  induction l with
  | nil => cases ha
  | cons c t ih =>
    rw [List.sorted_cons] at hs
    rcases List.mem_cons.mp ha with rfl | hat
    · have hbt : b ∈ t := by
        rcases List.mem_cons.mp hb with rfl | h2
        · omega
        · exact h2
      exact List.cons_sublist_cons.mpr (List.singleton_sublist.mpr hbt)
    · rcases List.mem_cons.mp hb with rfl | hbt
      · have := hs.1 a hat
        omega
      · exact (ih hs.2 hat hbt).cons c

theorem mem_dropLast_of_sorted {l : List Int} {d : Int}
    (hs : l.Sorted (· < ·)) (hd : d ∈ l) (hd1 : d + 1 ∈ l) : d ∈ l.dropLast := by
  induction l with
  | nil => cases hd
  | cons c t ih =>
    rw [List.sorted_cons] at hs
    cases t with
    | nil =>
      have h1 : d = c := List.mem_singleton.mp hd
      have h2 : d + 1 = c := List.mem_singleton.mp hd1
      omega
    | cons e t2 =>
      rw [List.dropLast_cons₂]
      rcases List.mem_cons.mp hd with rfl | hdt
      · exact List.mem_cons_self _ _
      · have hd1t : d + 1 ∈ e :: t2 := by
          rcases List.mem_cons.mp hd1 with heq | h2
          · have := hs.1 d hdt
            omega
          · exact h2
        exact List.mem_cons_of_mem c (ih hs.2 hdt hd1t)

theorem evalLhs_map_unit {α : Type} (σ : Var → Int) (l : List α) (v : α → Var) :
    evalLhs σ (l.map fun a => (1, v a)) = (l.map fun a => σ (v a)).sum := by
  induction l with
  | nil => rfl
  | cons c t ih =>
    simp only [List.map_cons, evalLhs, List.sum_cons] at *
    omega

/-! ### Elimination lemmas for buildModel and buildOk -/

theorem buildModel_ok_elim {days : List Int} {parks : List Park}
    {companies : List Company} {M : List LinCon}
    (h : buildModel days parks companies = Except.ok M) :
    M = modelConstraints days parks companies ∧ buildOk days parks = true := by
  unfold buildModel at h
  by_cases hb : buildOk days parks = true
  · rw [if_pos hb] at h
    exact ⟨(Except.ok.inj h).symm, hb⟩
  · rw [if_neg hb] at h
    exact Except.noConfusion h

theorem buildOk_succ_mem {days : List Int} {parks : List Park}
    (hok : buildOk days parks = true) (hpair : hasDemandingPair parks = true)
    {d : Int} (hd : d ∈ days.dropLast) : d + 1 ∈ days := by
  unfold buildOk at hok
  rw [Bool.and_eq_true, Bool.or_eq_true] at hok
  rcases hok.2 with h | h
  · rw [hpair] at h
    simp at h
  · rw [List.all_eq_true] at h
    have := h d hd
    simpa [List.contains_eq_any_beq] using this

/-! ### Shape lemmas for the constraint families -/

theorem hard_terms_shape {days : List Int} {parks : List Park} {c : LinCon}
    (hc : c ∈ hardConstraints days parks) :
    ∀ t ∈ c.terms, ∃ p d, t = (1, Var.x p d) := by
  simp only [hardConstraints, List.mem_append] at hc
  rcases hc with ((((h | h) | h) | h) | h)
  · simp only [constraint1, List.mem_map] at h
    obtain ⟨d, hd, rfl⟩ := h
    intro t ht
    simp only [List.mem_map] at ht
    obtain ⟨p, hp, rfl⟩ := ht
    exact ⟨p, d, rfl⟩
  · simp only [constraint2, List.mem_map] at h
    obtain ⟨p, hp, rfl⟩ := h
    intro t ht
    simp only [List.mem_map] at ht
    obtain ⟨d, hd, rfl⟩ := ht
    exact ⟨p, d, rfl⟩
  · simp only [constraint3, List.mem_flatMap, List.mem_map] at h
    obtain ⟨p, hp, d, hd, rfl⟩ := h
    intro t ht
    simp only [zeroCon, List.mem_singleton] at ht
    exact ⟨p.name, d, ht⟩
  · simp only [constraint4, List.mem_flatMap, List.mem_map] at h
    obtain ⟨p, hp, d, hd, rfl⟩ := h
    intro t ht
    simp only [oneCon, List.mem_singleton] at ht
    exact ⟨p.name, d, ht⟩
  · simp only [constraint5, List.mem_flatMap, List.mem_map] at h
    obtain ⟨p, hp, d, hd, rfl⟩ := h
    intro t ht
    simp only [zeroCon, List.mem_singleton] at ht
    exact ⟨p.name, d, ht⟩

theorem mem_constraint7_iff {days : List Int} {parks : List Park} {c : LinCon} :
    c ∈ constraint7 days parks ↔
      ∃ d1 ∈ days.dropLast, ∃ pq ∈ ordPairs parks,
        pq.1.demanding = true ∧ pq.2.demanding = true ∧
          (c = consecA pq.1.name pq.2.name d1 (d1 + 1)
            ∨ c = consecB pq.1.name pq.2.name d1 (d1 + 1)) := by
  simp only [constraint7, List.mem_flatMap, List.mem_filter, Bool.and_eq_true,
    List.mem_cons, List.mem_singleton, List.not_mem_nil, or_false]
  constructor
  · rintro ⟨d1, hd1, pq, ⟨hpq, hdem1, hdem2⟩, hor⟩
    exact ⟨d1, hd1, pq, hpq, hdem1, hdem2, hor⟩
  · rintro ⟨d1, hd1, pq, hpq, hdem1, hdem2, hor⟩
    exact ⟨d1, hd1, pq, ⟨hpq, hdem1, hdem2⟩, hor⟩

theorem mem_constraint8_iff {days : List Int} {parks : List Park}
    {companies : List Company} {c : LinCon} :
    c ∈ constraint8 days parks companies ↔
      ∃ comp ∈ companies, ∃ pq ∈ ordPairs parks,
        comp.company = pq.1.company ∧ comp.company = pq.2.company ∧
          ∃ dd ∈ ordPairs days, comp.number_of_days < dd.2 - dd.1 + 1 ∧
            (c = windowA pq.1.name pq.2.name dd.1 dd.2
              ∨ c = windowB pq.1.name pq.2.name dd.1 dd.2) := by
  simp only [constraint8, List.mem_flatMap, List.mem_filter, Bool.and_eq_true,
    beq_iff_eq, decide_eq_true_eq, List.mem_cons, List.mem_singleton,
    List.not_mem_nil, or_false]
  constructor
  · rintro ⟨comp, hcomp, pq, ⟨hpq, hc1, hc2⟩, dd, ⟨hdd, hspan⟩, hor⟩
    exact ⟨comp, hcomp, pq, hpq, hc1, hc2, dd, hdd, hspan, hor⟩
  · rintro ⟨comp, hcomp, pq, hpq, hc1, hc2, dd, hdd, hspan, hor⟩
    exact ⟨comp, hcomp, pq, ⟨hpq, hc1, hc2⟩, dd, ⟨hdd, hspan⟩, hor⟩

theorem model_mem_elim {days : List Int} {parks : List Park}
    {companies : List Company} {c : LinCon}
    (hc : c ∈ modelConstraints days parks companies) :
    c ∈ hardConstraints days parks ∨ c ∈ constraint7 days parks
      ∨ c ∈ constraint8 days parks companies := by
  simp only [modelConstraints, List.mem_append] at hc
  tauto

theorem ordPairs_mem {α : Type} {l : List α} {pq : α × α} (h : pq ∈ ordPairs l) :
    pq.1 ∈ l ∧ pq.2 ∈ l := by
  obtain ⟨a, b⟩ := pq
  have hsub := mem_ordPairs.mp h
  exact ⟨hsub.subset (List.mem_cons_self _ _), hsub.subset (by simp)⟩

theorem park_eq_of_name_eq {parks : List Park}
    (hnodup : (parks.map Park.name).Nodup) {p q : Park}
    (hp : p ∈ parks) (hq : q ∈ parks) (h : p.name = q.name) : p = q :=
  List.inj_on_of_nodup_map hnodup hp hq h

theorem company_eq_of_name_eq {companies : List Company}
    (hnodup : (companies.map Company.company).Nodup) {p q : Company}
    (hp : p ∈ companies) (hq : q ∈ companies) (h : p.company = q.company) : p = q :=
  List.inj_on_of_nodup_map hnodup hp hq h

theorem mem_hard_of {days : List Int} {parks : List Park} {c : LinCon}
    (h : c ∈ constraint1 days (parkNames parks)
      ∨ c ∈ constraint2 days (parkNames parks) ∨ c ∈ constraint3 parks
      ∨ c ∈ constraint4 parks ∨ c ∈ constraint5 parks) :
    c ∈ hardConstraints days parks := by
  simp only [hardConstraints, List.mem_append]
  tauto

theorem hard_sub_model {days : List Int} {parks : List Park}
    {companies : List Company} {c : LinCon}
    (h : c ∈ hardConstraints days parks) :
    c ∈ modelConstraints days parks companies := by
  simp only [modelConstraints, List.mem_append]
  tauto

theorem hasDemandingPair_of_mem {parks : List Park} {pq : Park × Park}
    (hpq : pq ∈ ordPairs parks) (h1 : pq.1.demanding = true)
    (h2 : pq.2.demanding = true) : hasDemandingPair parks = true := by
  unfold hasDemandingPair
  rw [List.any_eq_true]
  exact ⟨pq, hpq, by simp [h1, h2]⟩

/-! ### Claim C1 -/

/-- Claim C1 (refuted; the code is the slip): the spec states that the
preferred-day soft constraint (rule 6) is attached to the constraint
system.  In the source (line 65) the constraint expression is built but the
statement lacks a "problem +=", so it is never added: no constraint of any
returned model mentions a slack_6 variable, and the rule-6 constraint would
have to mention slack_pref.  This theorem proves the absence. -/
theorem no_preferred_day_constraint {days : List Int} {parks : List Park}
    {companies : List Company} {M : List LinCon} {c : LinCon} {t : Int × Var}
    (hok : buildModel days parks companies = Except.ok M)
    (hc : c ∈ M) (ht : t ∈ c.terms) : isS6 t.2 = false := by
  obtain ⟨rfl, hbo⟩ := buildModel_ok_elim hok
  rcases model_mem_elim hc with h | h | h
  · obtain ⟨p, d, rfl⟩ := hard_terms_shape h t ht
    rfl
  · obtain ⟨d1, hd1, pq, hpq, h1, h2, hor⟩ := mem_constraint7_iff.mp h
    rcases hor with rfl | rfl <;>
      · simp only [consecA, consecB, List.mem_cons, List.mem_singleton,
          List.not_mem_nil, or_false] at ht
        rcases ht with rfl | rfl | rfl <;> rfl
  · obtain ⟨comp, hcomp, pq, hpq, h1, h2, dd, hdd, hspan, hor⟩ :=
      mem_constraint8_iff.mp h
    rcases hor with rfl | rfl <;>
      · simp only [windowA, windowB, List.mem_cons, List.mem_singleton,
          List.not_mem_nil, or_false] at ht
        rcases ht with rfl | rfl | rfl <;> rfl

/-- Witness for C1: a concrete park with a preferred day produces a model,
and the theorem applies to its first constraint and term. -/
theorem no_preferred_day_constraint_witness :
    isS6 (((1 : Int), Var.x "P" 0)).2 = false :=
  @no_preferred_day_constraint [0] [pPref] [] (modelConstraints [0] [pPref] [])
    ⟨[((1 : Int), Var.x "P" 0)], false, 1⟩ ((1 : Int), Var.x "P" 0)
    (by rfl) (by decide) (by decide)

/-! ### Claim C9 -/

/-- Claim C9 (confirmed): for every park and every day in its
cannot_visit_days (forbidden) or days_to_avoid (avoid) lists, the built
model contains the hard constraint x[p][d] == 0, and consequently no
assignment satisfying all model constraints gives that variable a nonzero
value. -/
theorem forbidden_and_avoid_zero {days : List Int} {parks : List Park}
    {companies : List Company} {M : List LinCon}
    (hok : buildModel days parks companies = Except.ok M)
    {p : Park} (hp : p ∈ parks) {d : Int}
    (hd : d ∈ p.cannot_visit_days ∨ d ∈ p.days_to_avoid) :
    zeroCon p.name d ∈ M ∧
      ∀ σ : Var → Int, satAll σ M = true → σ (Var.x p.name d) = 0 := by
  obtain ⟨rfl, hbo⟩ := buildModel_ok_elim hok
  have hmem : zeroCon p.name d ∈ modelConstraints days parks companies := by
    apply hard_sub_model
    apply mem_hard_of
    rcases hd with h | h
    · refine Or.inr (Or.inr (Or.inl ?_))
      simp only [constraint3, List.mem_flatMap, List.mem_map]
      exact ⟨p, hp, d, h, rfl⟩
    · refine Or.inr (Or.inr (Or.inr (Or.inr ?_)))
      simp only [constraint5, List.mem_flatMap, List.mem_map]
      exact ⟨p, hp, d, h, rfl⟩
  refine ⟨hmem, ?_⟩
  intro σ hs
  rw [satAll, List.all_eq_true] at hs
  have := hs _ hmem
  simp only [satC, zeroCon, evalLhs, List.map_cons, List.map_nil,
    List.sum_cons, List.sum_nil, if_true, beq_iff_eq] at this
  omega

/-- Witness for C9: the model built for a park that avoids day 1 contains
the zeroing constraint for that day. -/
theorem forbidden_and_avoid_zero_witness :
    zeroCon "A" 1 ∈ modelConstraints [0, 1] [pAvoid] [] :=
  (@forbidden_and_avoid_zero [0, 1] [pAvoid] [] (modelConstraints [0, 1] [pAvoid] [])
    (by rfl) pAvoid (by decide) 1 (Or.inl (by decide))).1

/-! ### Claim C10 -/

/-- Claim C10 (confirmed): with at least two demanding parks and a strictly
increasing but non-contiguous day list (some non-final day whose successor
is missing), constraint 7 looks up the variable dictionaries at the absent
key d+1 and model construction fails with a KeyError instead of returning a
model. -/
theorem noncontiguous_days_key_error (days : List Int) (parks : List Park)
    (companies : List Company)
    (hsorted : days.Sorted (· < ·))
    (hdem : 2 ≤ (parks.filter fun p => p.demanding).length)
    (hgap : ∃ d ∈ days.dropLast, d + 1 ∉ days) :
    buildModel days parks companies = Except.error "KeyError" := by
  have hpair : hasDemandingPair parks = true := by
    rcases hf : parks.filter (fun p => p.demanding) with _ | ⟨a, _ | ⟨b, t2⟩⟩
    · rw [hf] at hdem; simp at hdem
    · rw [hf] at hdem; simp at hdem
    · have hsubf : [a, b].Sublist (parks.filter fun p => p.demanding) := by
        rw [hf]
        exact List.cons_sublist_cons.mpr
          (List.singleton_sublist.mpr (List.mem_cons_self _ _))
      have hsub : [a, b].Sublist parks := hsubf.trans (List.filter_sublist parks)
      have ha : a.demanding = true := by
        have : a ∈ parks.filter fun p => p.demanding := by
          rw [hf]; exact List.mem_cons_self _ _
        exact (List.mem_filter.mp this).2
      have hb : b.demanding = true := by
        have : b ∈ parks.filter fun p => p.demanding := by
          rw [hf]; exact List.mem_cons_of_mem _ (List.mem_cons_self _ _)
        exact (List.mem_filter.mp this).2
      exact hasDemandingPair_of_mem (mem_ordPairs.mpr hsub) ha hb
  have hall : (days.dropLast.all fun d => days.contains (d + 1)) = false := by
    obtain ⟨d, hd, hn⟩ := hgap
    rw [Bool.eq_false_iff]
    intro htrue
    rw [List.all_eq_true] at htrue
    have := htrue d hd
    exact hn (by simpa [List.contains_eq_any_beq] using this)
  have hbo : buildOk days parks = false := by
    unfold buildOk
    rw [hpair, hall]
    simp
  unfold buildModel
  rw [if_neg (by simp [hbo])]

/-- Witness for C10: two demanding parks and the gapped day list 0, 2. -/
theorem noncontiguous_days_key_error_witness :
    buildModel [0, 2] [pQ1, pQ2] [] = Except.error "KeyError" :=
  noncontiguous_days_key_error [0, 2] [pQ1, pQ2] [] (by decide) (by decide)
    ⟨0, by decide, by decide⟩

/-! ### Claims C5 and C6: consequences of the hard constraint system -/

/-- Claim C5 (confirmed): every 0/1 assignment of the x variables that
satisfies the hard constraints of the built model assigns each park exactly
one day and never two park names to one day. -/
theorem hard_constraints_bijection (days : List Int) (parks : List Park)
    (companies : List Company) (σ : Var → Int)
    (hok : (buildModel days parks companies).toOption.isSome = true)
    (hbin : ∀ p d, σ (Var.x p d) = 0 ∨ σ (Var.x p d) = 1)
    (hsat : satAll σ (hardConstraints days parks) = true) :
    (∀ p ∈ parks, ∃ d ∈ days, σ (Var.x p.name d) = 1
        ∧ ∀ e ∈ days, σ (Var.x p.name e) = 1 → e = d)
    ∧ (∀ d ∈ days, ∀ pa ∈ parks, ∀ pb ∈ parks,
        σ (Var.x pa.name d) = 1 → σ (Var.x pb.name d) = 1 →
          pa.name = pb.name) := by
  rw [satAll, List.all_eq_true] at hsat
  constructor
  · intro p hp
    have hmem : (⟨days.map fun d => (1, Var.x p.name d), true, 1⟩ : LinCon)
        ∈ hardConstraints days parks := by
      apply mem_hard_of
      exact Or.inr (Or.inl (List.mem_map.mpr ⟨p.name, List.mem_map.mpr ⟨p, hp, rfl⟩, rfl⟩))
    have hval := hsat _ hmem
    simp only [satC, if_true, beq_iff_eq] at hval
    rw [evalLhs_map_unit σ days fun d => Var.x p.name d] at hval
    obtain ⟨d, hd, h1, huni⟩ := listSum_one_unique days
      (fun d => σ (Var.x p.name d)) (fun d _ => hbin p.name d) hval
    exact ⟨d, hd, h1, fun e he h1e => huni e he h1e⟩
  · intro d hd pa hpa pb hpb h1a h1b
    by_contra hne
    have hmem : (⟨(parkNames parks).map fun n => (1, Var.x n d), false, 1⟩ : LinCon)
        ∈ hardConstraints days parks := by
      apply mem_hard_of
      exact Or.inl (List.mem_map.mpr ⟨d, hd, rfl⟩)
    have hval := hsat _ hmem
    simp only [satC, if_false, decide_eq_true_eq, Bool.false_eq_true] at hval
    rw [evalLhs_map_unit σ (parkNames parks) fun n => Var.x n d] at hval
    have h2 := listSum_two_le (parkNames parks) (fun n => σ (Var.x n d))
      pa.name pb.name
      (fun n _ => by
        show (0 : Int) ≤ σ (Var.x n d)
        rcases hbin n d with h | h <;> omega)
      (List.mem_map.mpr ⟨pa, hpa, rfl⟩) (List.mem_map.mpr ⟨pb, hpb, rfl⟩) hne
    have h2b : σ (Var.x pa.name d) + σ (Var.x pb.name d)
        ≤ ((parkNames parks).map fun n => σ (Var.x n d)).sum := h2
    omega

/-- Witness for C5: the concrete assignment sigmaBij satisfies the hard
constraints of the two-park two-day model and induces the bijection. -/
theorem hard_constraints_bijection_witness :
    (∀ p ∈ [pW1, pW2], ∃ d ∈ [(0 : Int), 1], sigmaBij (Var.x p.name d) = 1
        ∧ ∀ e ∈ [(0 : Int), 1], sigmaBij (Var.x p.name e) = 1 → e = d)
    ∧ (∀ d ∈ [(0 : Int), 1], ∀ pa ∈ [pW1, pW2], ∀ pb ∈ [pW1, pW2],
        sigmaBij (Var.x pa.name d) = 1 → sigmaBij (Var.x pb.name d) = 1 →
          pa.name = pb.name) :=
  hard_constraints_bijection [0, 1] [pW1, pW2] [] sigmaBij (by rfl)
    (fun p d => by
      unfold sigmaBij
      split
      · exact Or.inr rfl
      · exact Or.inl rfl)
    (by decide)

/-- Claim C6 (confirmed): when there are more parks than days, no 0/1
assignment satisfies the hard constraints of the model (constraint 2 forces
each park once, constraint 1 caps each day at one), so the solver can only
report infeasibility. -/
theorem more_parks_than_days_infeasible (days : List Int) (parks : List Park)
    (σ : Var → Int)
    (hlen : days.length < parks.length)
    (hbin : ∀ p d, σ (Var.x p d) = 0 ∨ σ (Var.x p d) = 1) :
    satAll σ (hardConstraints days parks) = false := by
  rw [Bool.eq_false_iff]
  intro hs
  rw [satAll, List.all_eq_true] at hs
  have hpark : ∀ p ∈ parkNames parks,
      ((days.map fun d => σ (Var.x p d)).sum) = 1 := by
    intro p hp
    have hmem : (⟨days.map fun d => (1, Var.x p d), true, 1⟩ : LinCon)
        ∈ hardConstraints days parks :=
      mem_hard_of (Or.inr (Or.inl (List.mem_map.mpr ⟨p, hp, rfl⟩)))
    have hval := hs _ hmem
    simp only [satC, if_true, beq_iff_eq] at hval
    rwa [evalLhs_map_unit σ days fun d => Var.x p d] at hval
  have hday : ∀ d ∈ days,
      (((parkNames parks).map fun p => σ (Var.x p d)).sum) ≤ 1 := by
    intro d hd
    have hmem : (⟨(parkNames parks).map fun p => (1, Var.x p d), false, 1⟩ : LinCon)
        ∈ hardConstraints days parks :=
      mem_hard_of (Or.inl (List.mem_map.mpr ⟨d, hd, rfl⟩))
    have hval := hs _ hmem
    simp only [satC, if_false, decide_eq_true_eq, Bool.false_eq_true] at hval
    rwa [evalLhs_map_unit σ (parkNames parks) fun p => Var.x p d] at hval
  have htot := listSum_eq_length (parkNames parks)
    (fun p => (days.map fun d => σ (Var.x p d)).sum) hpark
  have hswap := listSum_comm (parkNames parks) days fun p d => σ (Var.x p d)
  have hle := listSum_le_length days
    (fun d => ((parkNames parks).map fun p => σ (Var.x p d)).sum) hday
  have hlen2 : (parkNames parks).length = parks.length := List.length_map _ _
  omega

/-- Witness for C6: one day, two parks, the all-zero assignment. -/
theorem more_parks_than_days_infeasible_witness :
    satAll sigma0 (hardConstraints [0] [pW1, pW2]) = false :=
  more_parks_than_days_infeasible [0] [pW1, pW2] sigma0 (by decide)
    (fun p d => Or.inl rfl)

/-! ### Claim C3 -/

/-- Counterexample to claim C3: model construction completes (returns a
model, no error of any kind) on malformed inputs: a park whose
must_visit_day is also among its cannot_visit_days, a company record
referenced by no park together with a park referencing no company record,
and an empty day range. -/
theorem no_configuration_error_counterexample :
    pBad.must_visit_day = some 0 ∧ 0 ∈ pBad.cannot_visit_days
    ∧ (buildModel [0, 1] [pBad] [⟨"CompY", 3⟩]).toOption.isSome = true
    ∧ (buildModel [] [] [⟨"CompY", 3⟩]).toOption.isSome = true := by
  refine ⟨rfl, by decide, by rfl, by rfl⟩

/-- Claim C3 amended: the source performs no input validation at all; a
park whose must_visit_day is also forbidden still yields a model, and the
conflict surfaces only as infeasibility of the constraint system (the model
contains both x == 1 and x == 0 for the same variable, so no assignment
satisfies all constraints). -/
theorem no_validation_conflict_infeasible {days : List Int} {parks : List Park}
    {companies : List Company} {M : List LinCon} {p : Park} {d : Int}
    (σ : Var → Int)
    (hok : buildModel days parks companies = Except.ok M)
    (hp : p ∈ parks) (hmv : p.must_visit_day = some d)
    (hcv : d ∈ p.cannot_visit_days) :
    satAll σ M = false := by
  obtain ⟨rfl, hbo⟩ := buildModel_ok_elim hok
  rw [Bool.eq_false_iff]
  intro hs
  rw [satAll, List.all_eq_true] at hs
  have h0 : zeroCon p.name d ∈ modelConstraints days parks companies := by
    apply hard_sub_model
    apply mem_hard_of
    refine Or.inr (Or.inr (Or.inl ?_))
    simp only [constraint3, List.mem_flatMap, List.mem_map]
    exact ⟨p, hp, d, hcv, rfl⟩
  have h1 : oneCon p.name d ∈ modelConstraints days parks companies := by
    apply hard_sub_model
    apply mem_hard_of
    refine Or.inr (Or.inr (Or.inr (Or.inl ?_)))
    simp only [constraint4, List.mem_flatMap, List.mem_map]
    exact ⟨p, hp, d, by rw [hmv]; exact List.mem_singleton.mpr rfl, rfl⟩
  have e0 := hs _ h0
  have e1 := hs _ h1
  simp only [satC, zeroCon, oneCon, evalLhs, List.map_cons, List.map_nil,
    List.sum_cons, List.sum_nil, if_true, beq_iff_eq] at e0 e1
  omega

/-- Witness for C3 (amended): the malformed fixture builds a model and the
all-zero assignment indeed fails it. -/
theorem no_validation_conflict_infeasible_witness :
    satAll sigma0 (modelConstraints [0, 1] [pBad] []) = false :=
  @no_validation_conflict_infeasible [0, 1] [pBad] []
    (modelConstraints [0, 1] [pBad] []) pBad 0 sigma0 (by rfl) (by decide)
    rfl (by decide)

/-! ### Claim C2 -/

/-- Counterexample to claim C2: with every variable value 1, park X is
reported on both day 0 and day 1 (an activity appearing twice, violating
the claimed invariant), yet the extraction step returns the successful
mapping and no error condition of any kind: its result type has no error
outcome and no check is performed. -/
theorem extractor_no_check_counterexample :
    extractSchedule 1 [0, 1] [pX] (fun _ => 1) = some [(0, "X"), (1, "X")] := by
  rfl

/-- Claim C2 amended: the reporting step performs no consistency check at
all.  For any solver status at least 0 it returns exactly the (day, name)
pairs whose assignment variable is nonzero, duplicates included; for
negative status it reports nothing; no internal-error outcome exists. -/
theorem extractor_reports_all_nonzero (status : Int) (days : List Int)
    (parks : List Park) (value : Var → Int) :
    ((extractSchedule status days parks value).isSome ↔ 0 ≤ status)
    ∧ ∀ d n, ((d, n) ∈ (extractSchedule status days parks value).getD []
        ↔ 0 ≤ status ∧ d ∈ days
          ∧ (parks.any fun p => p.name == n && !(value (Var.x n d) == 0)) = true) := by
  unfold extractSchedule
  by_cases hst : 0 ≤ status
  · rw [if_pos hst]
    refine ⟨by simp [hst], ?_⟩
    intro d n
    simp only [Option.getD_some, List.mem_flatMap, List.mem_filterMap,
      hst, true_and, List.any_eq_true, Bool.and_eq_true, beq_iff_eq,
      Bool.not_eq_true', beq_eq_false_iff_ne]
    constructor
    · rintro ⟨e, he, p, hp, hpair⟩
      by_cases hz : value (Var.x p.name e) = 0
      · rw [if_pos hz] at hpair
        cases hpair
      · rw [if_neg hz] at hpair
        have hde : e = d ∧ p.name = n := by
          have := Option.some.inj hpair
          exact ⟨congrArg Prod.fst this, congrArg Prod.snd this⟩
        obtain ⟨rfl, rfl⟩ := hde
        exact ⟨he, p, hp, rfl, hz⟩
    · rintro ⟨hd, p, hp, rfl, hnz⟩
      exact ⟨d, hd, p, hp, by rw [if_neg hnz]⟩
  · rw [if_neg hst]
    refine ⟨by simp [hst], ?_⟩
    intro d n
    simp [hst]

/-! ### Claim C4 -/

/-- Counterexample to claim C4: the slack families are not restricted to
the claimed index sets.  With a single non-demanding park W1 and the days
0 and 5, the objective still sums a slack_7 variable for the non-distinct,
non-demanding pair (W1, W1) on the non-consecutive days (0, 5), and a
slack_8 variable for that same pair on the reversed (not d1 < d2) day pair
(5, 0). -/
theorem slack_families_counterexample :
    pW1.demanding = false
    ∧ (PENALTY_7, Var.s7 "W1" "W1" 0 5) ∈ objectiveTerms [0, 5] (parkNames [pW1])
    ∧ (PENALTY_8, Var.s8 "W1" "W1" 5 0) ∈ objectiveTerms [0, 5] (parkNames [pW1]) := by
  refine ⟨rfl, by decide, by decide⟩

/-- Claim C4 amended: the slack_7 and slack_8 families are created over the
FULL products of park names and days (lines 28-29) and every one of them is
summed into the objective (lines 36-38); the objective contains a term
(10000, v) exactly for the slack variables v indexed by listed park names
and listed days, with no restriction to demanding, distinct, consecutive or
ordered index pairs. -/
theorem objective_full_product (days : List Int) (names : List String)
    (w : Int) (v : Var) :
    (w, v) ∈ objectiveTerms days names ↔
      w = 10000 ∧ objFamily days names v = true := by
  simp only [objectiveTerms, PENALTY_6, PENALTY_7, PENALTY_8, List.mem_append,
    List.mem_flatMap, List.mem_map]
  constructor
  · rintro ((⟨p, hp, heq⟩ | ⟨p1, hp1, p2, hp2, d1, hd1, d2, hd2, heq⟩)
      | ⟨p1, hp1, p2, hp2, d1, hd1, d2, hd2, heq⟩)
    · injection heq with h1 h2
      subst h1
      subst h2
      simp [objFamily, hp]
    · injection heq with h1 h2
      subst h1
      subst h2
      simp [objFamily, hp1, hp2, hd1, hd2]
    · injection heq with h1 h2
      subst h1
      subst h2
      simp [objFamily, hp1, hp2, hd1, hd2]
  · rintro ⟨rfl, hfam⟩
    cases v with
    | x p d => simp [objFamily] at hfam
    | s6 p =>
      simp only [objFamily, decide_eq_true_eq] at hfam
      exact Or.inl (Or.inl ⟨p, hfam, rfl⟩)
    | s7 p1 p2 d1 d2 =>
      simp only [objFamily, Bool.and_eq_true, decide_eq_true_eq] at hfam
      exact Or.inl (Or.inr ⟨p1, hfam.1.1.1, p2, hfam.1.1.2, d1, hfam.1.2, d2, hfam.2, rfl⟩)
    | s8 p1 p2 d1 d2 =>
      simp only [objFamily, Bool.and_eq_true, decide_eq_true_eq] at hfam
      exact Or.inr ⟨p1, hfam.1.1.1, p2, hfam.1.1.2, d1, hfam.1.2, d2, hfam.2, rfl⟩

/-! ### Injectivity of the generated constraint shapes -/

theorem consecA_inj {a b e f : String} {c d g h : Int}
    (heq : consecA a b c d = consecA e f g h) :
    a = e ∧ b = f ∧ c = g ∧ d = h := by
  simp only [consecA, LinCon.mk.injEq, List.cons.injEq, Prod.mk.injEq,
    Var.x.injEq, Var.s7.injEq, and_true, true_and] at heq
  tauto

theorem consecB_inj {a b e f : String} {c d g h : Int}
    (heq : consecB a b c d = consecB e f g h) :
    a = e ∧ b = f ∧ c = g ∧ d = h := by
  simp only [consecB, LinCon.mk.injEq, List.cons.injEq, Prod.mk.injEq,
    Var.x.injEq, Var.s7.injEq, and_true, true_and] at heq
  tauto

theorem consecA_eq_consecB {a b e f : String} {c d g h : Int}
    (heq : consecA a b c d = consecB e f g h) :
    c = g ∧ c = h ∧ d = g ∧ d = h := by
  simp only [consecA, consecB, LinCon.mk.injEq, List.cons.injEq, Prod.mk.injEq,
    Var.x.injEq, Var.s7.injEq, and_true, true_and] at heq
  tauto

theorem windowA_inj {a b e f : String} {c d g h : Int}
    (heq : windowA a b c d = windowA e f g h) :
    a = e ∧ b = f ∧ c = g ∧ d = h := by
  simp only [windowA, LinCon.mk.injEq, List.cons.injEq, Prod.mk.injEq,
    Var.x.injEq, Var.s8.injEq, and_true, true_and] at heq
  tauto

theorem windowB_inj {a b e f : String} {c d g h : Int}
    (heq : windowB a b c d = windowB e f g h) :
    a = e ∧ b = f ∧ c = g ∧ d = h := by
  simp only [windowB, LinCon.mk.injEq, List.cons.injEq, Prod.mk.injEq,
    Var.x.injEq, Var.s8.injEq, and_true, true_and] at heq
  tauto

theorem windowA_eq_windowB {a b e f : String} {c d g h : Int}
    (heq : windowA a b c d = windowB e f g h) :
    a = e ∧ b = f ∧ c = h ∧ d = g := by
  simp only [windowA, windowB, LinCon.mk.injEq, List.cons.injEq, Prod.mk.injEq,
    Var.x.injEq, Var.s8.injEq, and_true, true_and] at heq
  tauto

theorem c7_sub_model {days : List Int} {parks : List Park}
    {companies : List Company} {c : LinCon} (h : c ∈ constraint7 days parks) :
    c ∈ modelConstraints days parks companies := by
  simp only [modelConstraints, List.mem_append]
  tauto

theorem c8_sub_model {days : List Int} {parks : List Park}
    {companies : List Company} {c : LinCon}
    (h : c ∈ constraint8 days parks companies) :
    c ∈ modelConstraints days parks companies := by
  simp only [modelConstraints, List.mem_append]
  tauto

/-! ### Claim C7 -/

/-- Claim C7 (confirmed): for parks pa before pb in the park list (the
representative of the unordered pair), under unique park names and sorted
days, BOTH temporal orders of the consecutive-demanding constraint with the
shared slack variable slack_7[pa][pb][d1][d2] are in the built model if and
only if both parks are demanding and (d1, d2) is a consecutive day pair of
the day list; in particular no such constraint exists when either park is
not demanding or the days are not consecutive. -/
theorem consecutive_demanding_iff (days : List Int) (parks : List Park)
    (companies : List Company) (M : List LinCon) (pa pb : Park) (d1 d2 : Int)
    (hok : buildModel days parks companies = Except.ok M)
    (hsorted : days.Sorted (· < ·))
    (hnodup : (parks.map Park.name).Nodup)
    (hsub : [pa, pb].Sublist parks) :
    (consecA pa.name pb.name d1 d2 ∈ M
      ↔ pa.demanding = true ∧ pb.demanding = true
        ∧ d1 ∈ days ∧ d2 ∈ days ∧ d2 = d1 + 1)
    ∧ (consecB pa.name pb.name d1 d2 ∈ M
      ↔ pa.demanding = true ∧ pb.demanding = true
        ∧ d1 ∈ days ∧ d2 ∈ days ∧ d2 = d1 + 1) := by
  obtain ⟨rfl, hbo⟩ := buildModel_ok_elim hok
  have hpa : pa ∈ parks := hsub.subset (List.mem_cons_self _ _)
  have hpb : pb ∈ parks := hsub.subset (by simp)
  have hgen : pa.demanding = true → pb.demanding = true →
      d1 ∈ days → d2 ∈ days → d2 = d1 + 1 →
      consecA pa.name pb.name d1 d2 ∈ constraint7 days parks
      ∧ consecB pa.name pb.name d1 d2 ∈ constraint7 days parks := by
    intro h1 h2 hd1 hd2 hsucc
    subst hsucc
    have hdrop : d1 ∈ days.dropLast := mem_dropLast_of_sorted hsorted hd1 hd2
    exact ⟨mem_constraint7_iff.mpr
        ⟨d1, hdrop, (pa, pb), mem_ordPairs.mpr hsub, h1, h2, Or.inl rfl⟩,
      mem_constraint7_iff.mpr
        ⟨d1, hdrop, (pa, pb), mem_ordPairs.mpr hsub, h1, h2, Or.inr rfl⟩⟩
  have hmatched : ∀ {pq : Park × Park} {e1 : Int}, pq ∈ ordPairs parks →
      pq.1.demanding = true → pq.2.demanding = true → e1 ∈ days.dropLast →
      pa.name = pq.1.name → pb.name = pq.2.name → d1 = e1 → d2 = e1 + 1 →
      pa.demanding = true ∧ pb.demanding = true
        ∧ d1 ∈ days ∧ d2 ∈ days ∧ d2 = d1 + 1 := by
    intro pq e1 hpq hq1 hq2 he1 hn1 hn2 hde hde2
    have hpairT := hasDemandingPair_of_mem hpq hq1 hq2
    have hq1e : pq.1 = pa :=
      park_eq_of_name_eq hnodup (ordPairs_mem hpq).1 hpa hn1.symm
    have hq2e : pq.2 = pb :=
      park_eq_of_name_eq hnodup (ordPairs_mem hpq).2 hpb hn2.symm
    have hsucc : e1 + 1 ∈ days := buildOk_succ_mem hbo hpairT he1
    refine ⟨by rw [← hq1e]; exact hq1, by rw [← hq2e]; exact hq2, ?_, ?_, by omega⟩
    · rw [hde]
      exact (List.dropLast_sublist days).subset he1
    · rw [hde2]
      exact hsucc
  constructor
  · constructor
    · intro hmem
      rcases model_mem_elim hmem with h | h | h
      · exfalso
        have ht : ((-1 : Int), Var.s7 pa.name pb.name d1 d2)
            ∈ (consecA pa.name pb.name d1 d2).terms := by simp [consecA]
        obtain ⟨p, d, heq⟩ := hard_terms_shape h _ ht
        simp at heq
      · obtain ⟨e1, he1, pq, hpq, hq1, hq2, hor⟩ := mem_constraint7_iff.mp h
        rcases hor with heq | heq
        · obtain ⟨hn1, hn2, hde, hde2⟩ := consecA_inj heq
          exact hmatched hpq hq1 hq2 he1 hn1 hn2 hde hde2
        · exfalso
          obtain ⟨hcg, hch, -, -⟩ := consecA_eq_consecB heq
          omega
      · exfalso
        obtain ⟨comp, hcomp, pq, hpq, hh1, hh2, dd, hdd, hspan, hor⟩ :=
          mem_constraint8_iff.mp h
        rcases hor with heq | heq <;> simp [consecA, windowA, windowB] at heq
    · rintro ⟨h1, h2, hd1, hd2, hsucc⟩
      exact c7_sub_model (hgen h1 h2 hd1 hd2 hsucc).1
  · constructor
    · intro hmem
      rcases model_mem_elim hmem with h | h | h
      · exfalso
        have ht : ((-1 : Int), Var.s7 pa.name pb.name d1 d2)
            ∈ (consecB pa.name pb.name d1 d2).terms := by simp [consecB]
        obtain ⟨p, d, heq⟩ := hard_terms_shape h _ ht
        simp at heq
      · obtain ⟨e1, he1, pq, hpq, hq1, hq2, hor⟩ := mem_constraint7_iff.mp h
        rcases hor with heq | heq
        · exfalso
          obtain ⟨hcg, hch, hdg, hdh⟩ := consecA_eq_consecB heq.symm
          omega
        · obtain ⟨hn1, hn2, hde, hde2⟩ := consecB_inj heq
          exact hmatched hpq hq1 hq2 he1 hn1 hn2 hde hde2
      · exfalso
        obtain ⟨comp, hcomp, pq, hpq, hh1, hh2, dd, hdd, hspan, hor⟩ :=
          mem_constraint8_iff.mp h
        rcases hor with heq | heq <;> simp [consecB, windowA, windowB] at heq
    · rintro ⟨h1, h2, hd1, hd2, hsucc⟩
      exact c7_sub_model (hgen h1 h2 hd1 hd2 hsucc).2

/-- Witness for C7: both temporal orders are present for the demanding
pair (D1, D2) on the consecutive days (0, 1) of the two-day model. -/
theorem consecutive_demanding_iff_witness :
    consecA "D1" "D2" 0 1 ∈ modelConstraints [0, 1] [pD1, pD2] []
    ∧ consecB "D1" "D2" 0 1 ∈ modelConstraints [0, 1] [pD1, pD2] [] := by
  have h := consecutive_demanding_iff [0, 1] [pD1, pD2] []
    (modelConstraints [0, 1] [pD1, pD2] []) pD1 pD2 0 1 (by rfl) (by decide)
    (by decide) (List.Sublist.refl _)
  exact ⟨h.1.mpr ⟨rfl, rfl, by decide, by decide, rfl⟩,
    h.2.mpr ⟨rfl, rfl, by decide, by decide, rfl⟩⟩

/-! ### Claim C8 -/

/-- Claim C8 (confirmed): for parks pa before pb in the park list that both
belong to the company record comp, under unique park and company names and
sorted days, the penalized company-window constraints (both temporal
orders) for a day pair d1 < d2 of the day list are in the built model if
and only if the inclusive span d2 - d1 + 1 exceeds comp.number_of_days. -/
theorem company_window_iff (days : List Int) (parks : List Park)
    (companies : List Company) (M : List LinCon) (comp : Company)
    (pa pb : Park) (d1 d2 : Int)
    (hok : buildModel days parks companies = Except.ok M)
    (hsorted : days.Sorted (· < ·))
    (hnodup : (parks.map Park.name).Nodup)
    (hcnodup : (companies.map Company.company).Nodup)
    (hcomp : comp ∈ companies)
    (hsub : [pa, pb].Sublist parks)
    (hca : pa.company = comp.company) (hcb : pb.company = comp.company)
    (hd1 : d1 ∈ days) (hd2 : d2 ∈ days) (hlt : d1 < d2) :
    (windowA pa.name pb.name d1 d2 ∈ M ↔ comp.number_of_days < d2 - d1 + 1)
    ∧ (windowB pa.name pb.name d1 d2 ∈ M ↔ comp.number_of_days < d2 - d1 + 1) := by
  obtain ⟨rfl, hbo⟩ := buildModel_ok_elim hok
  have hpa : pa ∈ parks := hsub.subset (List.mem_cons_self _ _)
  have hpb : pb ∈ parks := hsub.subset (by simp)
  have hddmem : (d1, d2) ∈ ordPairs days :=
    mem_ordPairs.mpr (pair_sublist_of_sorted hsorted hd1 hd2 hlt)
  have hgen : comp.number_of_days < d2 - d1 + 1 →
      windowA pa.name pb.name d1 d2 ∈ constraint8 days parks companies
      ∧ windowB pa.name pb.name d1 d2 ∈ constraint8 days parks companies := by
    intro hspan
    exact ⟨mem_constraint8_iff.mpr ⟨comp, hcomp, (pa, pb), mem_ordPairs.mpr hsub,
        hca.symm, hcb.symm, (d1, d2), hddmem, hspan, Or.inl rfl⟩,
      mem_constraint8_iff.mpr ⟨comp, hcomp, (pa, pb), mem_ordPairs.mpr hsub,
        hca.symm, hcb.symm, (d1, d2), hddmem, hspan, Or.inr rfl⟩⟩
  have hmatched : ∀ {comp' : Company} {pq : Park × Park} {dd : Int × Int},
      comp' ∈ companies → pq ∈ ordPairs parks →
      comp'.company = pq.1.company → comp'.company = pq.2.company →
      comp'.number_of_days < dd.2 - dd.1 + 1 →
      pa.name = pq.1.name → d1 = dd.1 → d2 = dd.2 →
      comp.number_of_days < d2 - d1 + 1 := by
    intro comp' pq dd hc' hpq hco1 hco2 hspan hn1 hdd1 hdd2
    have hq1e : pq.1 = pa :=
      park_eq_of_name_eq hnodup (ordPairs_mem hpq).1 hpa hn1.symm
    have hcc : comp' = comp :=
      company_eq_of_name_eq hcnodup hc' hcomp (by rw [hco1, hq1e, hca])
    rw [hdd1, hdd2, ← hcc]
    exact hspan
  constructor
  · constructor
    · intro hmem
      rcases model_mem_elim hmem with h | h | h
      · exfalso
        have ht : ((-1 : Int), Var.s8 pa.name pb.name d1 d2)
            ∈ (windowA pa.name pb.name d1 d2).terms := by simp [windowA]
        obtain ⟨p, d, heq⟩ := hard_terms_shape h _ ht
        simp at heq
      · exfalso
        obtain ⟨e1, he1, pq, hpq, hq1, hq2, hor⟩ := mem_constraint7_iff.mp h
        rcases hor with heq | heq <;> simp [windowA, consecA, consecB] at heq
      · obtain ⟨comp', hc', pq, hpq, hco1, hco2, dd, hdd, hspan, hor⟩ :=
          mem_constraint8_iff.mp h
        rcases hor with heq | heq
        · obtain ⟨hn1, hn2, hdd1, hdd2⟩ := windowA_inj heq
          exact hmatched hc' hpq hco1 hco2 hspan hn1 hdd1 hdd2
        · exfalso
          obtain ⟨hn1, hn2, hdh, hdg⟩ := windowA_eq_windowB heq
          have := ordPairs_lt_of_sorted hsorted hdd
          omega
    · intro hspan
      exact c8_sub_model (hgen hspan).1
  · constructor
    · intro hmem
      rcases model_mem_elim hmem with h | h | h
      · exfalso
        have ht : ((-1 : Int), Var.s8 pa.name pb.name d2 d1)
            ∈ (windowB pa.name pb.name d1 d2).terms := by simp [windowB]
        obtain ⟨p, d, heq⟩ := hard_terms_shape h _ ht
        simp at heq
      · exfalso
        obtain ⟨e1, he1, pq, hpq, hq1, hq2, hor⟩ := mem_constraint7_iff.mp h
        rcases hor with heq | heq <;> simp [windowB, consecA, consecB] at heq
      · obtain ⟨comp', hc', pq, hpq, hco1, hco2, dd, hdd, hspan, hor⟩ :=
          mem_constraint8_iff.mp h
        rcases hor with heq | heq
        · exfalso
          obtain ⟨hn1, hn2, hch, hcg⟩ := windowA_eq_windowB heq.symm
          have := ordPairs_lt_of_sorted hsorted hdd
          omega
        · obtain ⟨hn1, hn2, hdd1, hdd2⟩ := windowB_inj heq
          exact hmatched hc' hpq hco1 hco2 hspan hn1 hdd1 hdd2
    · intro hspan
      exact c8_sub_model (hgen hspan).2

/-- Witness for C8: parks U1, U2 of company U with a one-day window and the
days 0 and 1 (span 2 exceeds the window), both orders present. -/
theorem company_window_iff_witness :
    windowA "U1" "U2" 0 1 ∈ modelConstraints [0, 1] [pU1, pU2] [compU]
    ∧ windowB "U1" "U2" 0 1 ∈ modelConstraints [0, 1] [pU1, pU2] [compU] := by
  have h := company_window_iff [0, 1] [pU1, pU2] [compU]
    (modelConstraints [0, 1] [pU1, pU2] [compU]) compU pU1 pU2 0 1 (by rfl)
    (by decide) (by decide) (by decide) (by decide) (List.Sublist.refl _)
    rfl rfl (by decide) (by decide) (by decide)
  exact ⟨h.1.mpr (by decide), h.2.mpr (by decide)⟩

end ParkScheduler
